import Mathlib

/-!
Shallow embedding of the core of an embedded copy-on-write transactional
key-value store (files `src/file.rs`, `src/file_lock/unix.rs`, `src/table.rs`),
together with proofs settling the specification claims about it.

Bytes are modelled as `List Nat`; machine indices (`u64` offsets, `usize`
lengths) are `Nat` (the code runs on 64-bit hosts, where the `usize::try_from`
conversions are infallible).  Fallible Rust code returns `Except`; a Rust
panic is modelled by an outer `Option` being `none`.
-/

namespace Redb

/-- A byte string (the contents of a buffer, an encoded key or value). -/
abbrev Bytes := List Nat

/-! ## Error types (src/file.rs lines 81-100) -/

/-- The kind of an `std::io::Error`, as far as the code inspects it:
`WouldBlock` is matched on in `LockedFile::new`; everything else is opaque. -/
inductive IoErrorKind where
  | wouldBlock
  | unexpectedEof
  | notFound
  | other (code : Nat)
deriving DecidableEq, Repr

/-- `LockedFileError` (src/file.rs lines 83-86): `DatabaseAlreadyOpen` or an
I/O error carrying the underlying OS error (constructor `Io` in the source;
spelled `IoError` here). -/
inductive LockedFileError where
  | DatabaseAlreadyOpen
  | IoError (kind : IoErrorKind)
deriving DecidableEq, Repr

/-! ## In-memory locked file (src/file.rs lines 174-202) -/

/-- Rust `Vec::resize(n, 0u8)`: truncate to `n` or extend with zero bytes so
the vector has length exactly `n`. -/
def vecResize (v : Bytes) (n : Nat) : Bytes :=
  v.take n ++ List.replicate (n - v.length) 0

/-- `MemoryLockFile::read` (src/file.rs lines 183-187): returns
`data[offset..offset + len].to_vec()`.  The outer `Option` is `none` exactly
when the Rust slice index panics, i.e. when `offset + len` exceeds the buffer
length; the body otherwise always returns `Ok`. -/
def memoryLockFileRead (data : Bytes) (offset len : Nat) :
    Option (Except LockedFileError Bytes) :=
  if offset + len ≤ data.length then
    some (Except.ok ((data.drop offset).take len))
  else
    none

/-- The buffer produced by `MemoryLockFile::write` (src/file.rs lines
189-197): if `offset + new_data.len() >= data.len()` the vector is resized to
`offset + new_data.len()` (zero filling), then
`data[offset..offset + new_data.len()].copy_from_slice(new_data)`. -/
def memoryLockFileWriteCore (data : Bytes) (offset : Nat) (newData : Bytes) :
    Bytes :=
  let d := if data.length ≤ offset + newData.length then
    vecResize data (offset + newData.length)
  else
    data
  d.take offset ++ newData ++ d.drop (offset + newData.length)

/-- `MemoryLockFile::write` (src/file.rs lines 189-197): always `Ok(())`; the
slice copy after the conditional resize is always in bounds, so no panic. -/
def memoryLockFileWrite (data : Bytes) (offset : Nat) (newData : Bytes) :
    Except LockedFileError Bytes :=
  Except.ok (memoryLockFileWriteCore data offset newData)

/-! ## OS-backed locked file (src/file_lock/unix.rs) -/

/-- The flock request issued by `LockedFile::new`
(src/file_lock/unix.rs line 16): `LOCK_EX | LOCK_NB`. -/
structure FlockRequest where
  exclusive : Bool
  nonBlocking : Bool
deriving DecidableEq, Repr

/-- Outcome of the `libc::flock` call: `result == 0`, or `result != 0` with
the errno kind reported by `io::Error::last_os_error()`. -/
inductive FlockOutcome where
  | success
  | failure (kind : IoErrorKind)
deriving DecidableEq, Repr

/-- `LockedFile::new` (src/file_lock/unix.rs lines 14-27), parameterized by
the OS response `os` to a flock request: issues a non-blocking exclusive
lock request; on failure, `WouldBlock` becomes `DatabaseAlreadyOpen` and any
other error kind is wrapped as an I/O error. -/
def lockedFileNew (os : FlockRequest → FlockOutcome) :
    Except LockedFileError Unit :=
  match os ⟨true, true⟩ with
  | FlockOutcome.success => Except.ok ()
  | FlockOutcome.failure k =>
    if k = IoErrorKind.wouldBlock then
      Except.error LockedFileError.DatabaseAlreadyOpen
    else
      Except.error (LockedFileError.IoError k)

/-- Modelled from the spec: `LockedFile::read` (src/file_lock/unix.rs lines
33-37) fills a fresh `len`-byte buffer with `read_exact_at`, whose contract
the spec states as "Read is positional and exact (must fill the buffer or
fail)".  `osFault` is a fault the OS may inject; absent a fault, the read
succeeds exactly when the range lies inside the file. -/
def unixLockedFileRead (osFault : Option IoErrorKind) (data : Bytes)
    (offset len : Nat) : Except LockedFileError Bytes :=
  match osFault with
  | some k => Except.error (LockedFileError.IoError k)
  | none =>
    if offset + len ≤ data.length then
      Except.ok ((data.drop offset).take len)
    else
      Except.error (LockedFileError.IoError IoErrorKind.unexpectedEof)

/-- Modelled from the spec: `LockedFile::write` (src/file_lock/unix.rs lines
39-42) uses `write_all_at`, whose contract the spec states as "Write is
positional and total (must consume all bytes or fail)".  A successful
positional write to a regular file has the same splice-with-zero-extension
semantics as the in-memory file. -/
def unixLockedFileWrite (osFault : Option IoErrorKind) (data : Bytes)
    (offset : Nat) (newData : Bytes) : Except LockedFileError Bytes :=
  match osFault with
  | some k => Except.error (LockedFileError.IoError k)
  | none => Except.ok (memoryLockFileWriteCore data offset newData)

/-! ## In-memory filesystem (src/file.rs lines 111-172)

A `MemoryFile` is an `Arc<Mutex<Vec<u8>>>`: a shared mutable buffer.  We model
the `Arc` by an index into a heap of buffers, and the `MemoryFs` path map
(`HashMap<PathBuf, MemoryFile>`) by an association list in which an insert
prepends (so a lookup sees the newest binding, as a `HashMap` insert
replaces). -/

/-- The state of a `MemoryFs` (src/file.rs lines 111-114): a heap of shared
buffers (a `MemoryFile` is an index into it) and the path map.  Paths are an
arbitrary decidable type `π`. -/
structure MemoryFsState (π : Type) where
  heap : List Bytes
  files : List (π × Nat)
deriving Repr

/-- Contents of the shared buffer behind file handle `f`. -/
def MemoryFsState.fileData {π : Type} (s : MemoryFsState π) (f : Nat) : Bytes :=
  s.heap.getD f []

/-- `MemoryFs::exists` (src/file.rs lines 126-131). -/
def memoryFsExists {π : Type} [DecidableEq π] (s : MemoryFsState π) (p : π) :
    Bool :=
  (s.files.lookup p).isSome

/-- `MemoryFs::create` (src/file.rs lines 133-138): builds a fresh
`MemoryFile::default()` (a new empty shared buffer) and inserts it into the
path map, unconditionally replacing any existing binding for `p`.  Returns
the new state and the handle. -/
def memoryFsCreate {π : Type} (s : MemoryFsState π) (p : π) :
    MemoryFsState π × Nat :=
  let f := s.heap.length
  (⟨s.heap ++ [[]], (p, f) :: s.files⟩, f)

/-- `MemoryFs::open` (src/file.rs lines 140-149): clones the shared handle
bound to `p`, or fails with a not-found I/O error. -/
def memoryFsOpen {π : Type} [DecidableEq π] (s : MemoryFsState π) (p : π) :
    Except IoErrorKind Nat :=
  match s.files.lookup p with
  | some f => Except.ok f
  | none => Except.error IoErrorKind.notFound

/-- Writing through a `MemoryFile` handle (as `MemoryLockFile::write` does
after wrapping it): mutates the shared buffer in place, so every handle to
the same buffer observes the change. -/
def MemoryFsState.writeFile {π : Type} (s : MemoryFsState π) (f : Nat)
    (offset : Nat) (newData : Bytes) : MemoryFsState π :=
  ⟨s.heap.set f (memoryLockFileWriteCore (s.fileData f) offset newData),
    s.files⟩

/-- The `OpenOptions` flags of the standard library file-open builder, all
`false` by default as in `OpenOptions::new()`. -/
structure OpenOptions where
  readAccess : Bool := false
  writeAccess : Bool := false
  create : Bool := false
  truncate : Bool := false
  append : Bool := false
  createNew : Bool := false
deriving DecidableEq, Repr

/-- `StdFs::create` (src/file.rs lines 33-40):
`OpenOptions::new().read(true).write(true).create(true)` — read+write access,
create-if-absent, and no truncation. -/
def stdFsCreateOptions : OpenOptions :=
  { readAccess := true, writeAccess := true, create := true }

/-! ## The B-tree as an ordered map

The `tree_store` module (`BtreeMut` / `Btree`) is not part of the excerpt.
Per the spec it is a copy-on-write ordered map over opaque byte blobs whose
order is byte-lexicographic (invariant I5: "Encoded keys admit a total order
that matches the abstract key order lexicographically over bytes"), so we
model a table's logical content as an association list of encoded
key / value byte strings kept strictly sorted by key. -/

/-- Strict lexicographic order on byte strings (invariant I5). -/
def ltBytes : Bytes → Bytes → Bool
  | [], [] => false
  | [], _ :: _ => true
  | _ :: _, [] => false
  | a :: as, b :: bs =>
    if a < b then true
    else if b < a then false
    else ltBytes as bs

theorem ltBytes_irrefl (a : Bytes) : ltBytes a a = false := by
  induction a with
  | nil => rfl
  | cons x xs ih => simp [ltBytes, ih]

theorem ltBytes_ne {a b : Bytes} (h : ltBytes a b = true) : a ≠ b := by
  intro rfl_eq
  subst rfl_eq
  simp [ltBytes_irrefl] at h

theorem ltBytes_trans :
    ∀ {a b c : Bytes}, ltBytes a b = true → ltBytes b c = true →
      ltBytes a c = true := by
  intro a
  induction a with
  | nil =>
    intro b c hab hbc
    cases b with
    | nil => simp [ltBytes] at hab
    | cons y ys =>
      cases c with
      | nil => simp [ltBytes] at hbc
      | cons z zs => simp [ltBytes]
  | cons x xs ih =>
    intro b c hab hbc
    cases b with
    | nil => simp [ltBytes] at hab
    | cons y ys =>
      cases c with
      | nil => simp [ltBytes] at hbc
      | cons z zs =>
        simp only [ltBytes] at hab hbc ⊢
        rcases Nat.lt_trichotomy x y with hxy | hxy | hxy
        · rcases Nat.lt_trichotomy y z with hyz | hyz | hyz
          · simp [Nat.lt_trans hxy hyz]
          · subst hyz; simp [hxy]
          · simp [hyz, Nat.lt_asymm hyz] at hbc
        · subst hxy
          rcases Nat.lt_trichotomy x z with hxz | hxz | hxz
          · simp [hxz]
          · subst hxz
            simp [Nat.lt_irrefl] at hab hbc ⊢
            exact ih hab hbc
          · simp [hxz, Nat.lt_asymm hxz] at hbc
        · simp [hxy, Nat.lt_asymm hxy] at hab

theorem ltBytes_total :
    ∀ {a b : Bytes}, ltBytes a b = false → a ≠ b → ltBytes b a = true := by
  intro a
  induction a with
  | nil =>
    intro b hab hne
    cases b with
    | nil => exact absurd rfl hne
    | cons y ys => simp [ltBytes] at hab
  | cons x xs ih =>
    intro b hab hne
    cases b with
    | nil => simp [ltBytes]
    | cons y ys =>
      simp only [ltBytes] at hab ⊢
      rcases Nat.lt_trichotomy x y with hxy | hxy | hxy
      · simp [hxy] at hab
      · subst hxy
        simp only [Nat.lt_irrefl, if_false] at hab ⊢
        have hys : xs ≠ ys := by
          intro h
          exact hne (by rw [h])
        exact ih hab hys
      · simp [hxy, Nat.lt_asymm hxy]

/-- The logical content of a table: encoded keys paired with encoded values. -/
abbrev TableState := List (Bytes × Bytes)

/-- The table invariant: entries are strictly sorted by encoded key. -/
def SortedTable (t : TableState) : Prop :=
  List.Pairwise (fun a b => ltBytes a.1 b.1 = true) t

instance (t : TableState) : Decidable (SortedTable t) :=
  List.instDecidablePairwise t

/-- Modelled from the spec: `Btree::get` in `tree_store` (called by
`Table::get` / `ReadOnlyTable::get`, src/table.rs lines 174-179 and 284-289).
Looks the key up by byte equality (spec §4.4: binary search by the byte-order
comparator over the sorted entries). -/
def btreeGet : TableState → Bytes → Option Bytes
  | [], _ => none
  | (k1, v1) :: rest, k => if k = k1 then some v1 else btreeGet rest k

/-- Modelled from the spec: `BtreeMut::insert` in `tree_store` (called by
`Table::insert`, src/table.rs line 130).  Stores the new binding at its
sorted position, replacing any existing binding for the key, and returns the
old value if the key was present (doc comment on `Table::insert`). -/
def btreeInsert : TableState → Bytes → Bytes → TableState × Option Bytes
  | [], k, v => ([(k, v)], none)
  | (k1, v1) :: rest, k, v =>
    if ltBytes k k1 then ((k, v) :: (k1, v1) :: rest, none)
    else if k = k1 then ((k, v) :: rest, some v1)
    else
      let r := btreeInsert rest k v
      ((k1, v1) :: r.1, r.2)

/-- Modelled from the spec: `BtreeMut::remove` in `tree_store` (called by
`Table::remove`, src/table.rs lines 136-144).  Removes the binding for the
key if present and returns the old value. -/
def btreeRemove : TableState → Bytes → TableState × Option Bytes
  | [], _ => ([], none)
  | (k1, v1) :: rest, k =>
    if k = k1 then (rest, some v1)
    else
      let r := btreeRemove rest k
      ((k1, v1) :: r.1, r.2)

/-- Modelled from the spec: `Btree::len` in `tree_store` (called by
`Table::len` / `ReadOnlyTable::len`, src/table.rs lines 189-191 and 299-301):
the number of entries. -/
def btreeLen (t : TableState) : Nat := t.length

theorem btreeGet_insert_self (t : TableState) (k v : Bytes) :
    btreeGet (btreeInsert t k v).1 k = some v := by
  induction t with
  | nil => simp [btreeInsert, btreeGet]
  | cons hd rest ih =>
    obtain ⟨k1, v1⟩ := hd
    by_cases hlt : ltBytes k k1 = true
    · simp [btreeInsert, hlt, btreeGet]
    · by_cases heq : k = k1
      · subst heq
        simp [btreeInsert, hlt, btreeGet]
      · simp [btreeInsert, hlt, heq, btreeGet, ih]

theorem mem_btreeInsert {t : TableState} {k v : Bytes} {p : Bytes × Bytes}
    (h : p ∈ (btreeInsert t k v).1) : p = (k, v) ∨ p ∈ t := by
  induction t with
  | nil =>
    simp [btreeInsert] at h
    exact Or.inl h
  | cons hd rest ih =>
    obtain ⟨k1, v1⟩ := hd
    by_cases hlt : ltBytes k k1 = true
    · simp only [btreeInsert, hlt, if_true] at h
      rcases List.mem_cons.mp h with rfl | h
      · exact Or.inl rfl
      · exact Or.inr h
    · by_cases heq : k = k1
      · subst heq
        simp only [btreeInsert, hlt, if_false, if_pos rfl] at h
        rcases List.mem_cons.mp h with rfl | h
        · exact Or.inl rfl
        · exact Or.inr (List.mem_cons_of_mem _ h)
      · simp only [btreeInsert, hlt, heq, if_false] at h
        rcases List.mem_cons.mp h with rfl | h
        · exact Or.inr (List.mem_cons_self _ _)
        · rcases ih h with rfl | h
          · exact Or.inl rfl
          · exact Or.inr (List.mem_cons_of_mem _ h)

theorem mem_btreeRemove {t : TableState} {k : Bytes} {p : Bytes × Bytes}
    (h : p ∈ (btreeRemove t k).1) : p ∈ t := by
  induction t with
  | nil => exact h
  | cons hd rest ih =>
    obtain ⟨k1, v1⟩ := hd
    by_cases heq : k = k1
    · subst heq
      simp only [btreeRemove, if_pos rfl] at h
      exact List.mem_cons_of_mem _ h
    · simp only [btreeRemove, heq, if_false] at h
      rcases List.mem_cons.mp h with rfl | h
      · exact List.mem_cons_self _ _
      · exact List.mem_cons_of_mem _ (ih h)

theorem sortedTable_insert {t : TableState} (k v : Bytes)
    (h : SortedTable t) : SortedTable (btreeInsert t k v).1 := by
  induction t with
  | nil => simp [btreeInsert, SortedTable]
  | cons hd rest ih =>
    obtain ⟨k1, v1⟩ := hd
    rw [SortedTable, List.pairwise_cons] at h
    obtain ⟨hall, hrest⟩ := h
    by_cases hlt : ltBytes k k1 = true
    · rw [SortedTable]
      simp only [btreeInsert, hlt, if_true, List.pairwise_cons]
      refine ⟨?_, ?_, hrest⟩
      · intro p hp
        rcases List.mem_cons.mp hp with rfl | hp
        · exact hlt
        · exact ltBytes_trans hlt (hall p hp)
      · exact fun p hp => hall p hp
    · by_cases heq : k = k1
      · subst heq
        have hstep : btreeInsert ((k, v1) :: rest) k v = ((k, v) :: rest, some v1) := by
          simp [btreeInsert, hlt]
        rw [hstep, SortedTable, List.pairwise_cons]
        exact ⟨fun p hp => hall p hp, hrest⟩
      · have hstep : btreeInsert ((k1, v1) :: rest) k v =
            ((k1, v1) :: (btreeInsert rest k v).1, (btreeInsert rest k v).2) := by
          simp [btreeInsert, hlt, heq]
        rw [hstep, SortedTable, List.pairwise_cons]
        refine ⟨?_, ih hrest⟩
        intro p hp
        rcases mem_btreeInsert hp with rfl | hp
        · exact ltBytes_total (Bool.not_eq_true _ ▸ hlt) heq
        · exact hall p hp

theorem sortedTable_remove {t : TableState} (k : Bytes)
    (h : SortedTable t) : SortedTable (btreeRemove t k).1 := by
  induction t with
  | nil => exact h
  | cons hd rest ih =>
    obtain ⟨k1, v1⟩ := hd
    rw [SortedTable, List.pairwise_cons] at h
    obtain ⟨hall, hrest⟩ := h
    by_cases heq : k = k1
    · subst heq
      have hstep : btreeRemove ((k, v1) :: rest) k = (rest, some v1) := by
        simp [btreeRemove]
      rw [hstep]
      exact hrest
    · simp only [btreeRemove, heq, if_false, SortedTable, List.pairwise_cons]
      exact ⟨fun p hp => hall p (mem_btreeRemove hp), ih hrest⟩

theorem btreeGet_eq_none_of_forall_lt {t : TableState} {k : Bytes}
    (h : ∀ p ∈ t, ltBytes k p.1 = true) : btreeGet t k = none := by
  induction t with
  | nil => rfl
  | cons hd rest ih =>
    obtain ⟨k1, v1⟩ := hd
    have hne : k ≠ k1 := ltBytes_ne (h (k1, v1) (List.mem_cons_self _ _))
    simp only [btreeGet, hne, if_false]
    exact ih fun p hp => h p (List.mem_cons_of_mem _ hp)

theorem btreeGet_remove_self {t : TableState} (k : Bytes)
    (h : SortedTable t) : btreeGet (btreeRemove t k).1 k = none := by
  induction t with
  | nil => rfl
  | cons hd rest ih =>
    obtain ⟨k1, v1⟩ := hd
    rw [SortedTable, List.pairwise_cons] at h
    obtain ⟨hall, hrest⟩ := h
    by_cases heq : k = k1
    · subst heq
      simp only [btreeRemove, if_pos rfl]
      exact btreeGet_eq_none_of_forall_lt fun p hp => hall p hp
    · simp only [btreeRemove, heq, if_false, btreeGet]
      exact ih hrest

theorem btreeRemove_of_get_none {t : TableState} {k : Bytes}
    (h : btreeGet t k = none) : btreeRemove t k = (t, none) := by
  induction t with
  | nil => rfl
  | cons hd rest ih =>
    obtain ⟨k1, v1⟩ := hd
    by_cases heq : k = k1
    · subst heq
      simp [btreeGet] at h
    · simp only [btreeGet, heq, if_false] at h
      simp [btreeRemove, heq, ih h]

theorem btreeRemove_append_last {front : TableState} {k v : Bytes}
    (h : ∀ p ∈ front, p.1 ≠ k) :
    btreeRemove (front ++ [(k, v)]) k = (front, some v) := by
  induction front with
  | nil => simp [btreeRemove]
  | cons hd rest ih =>
    obtain ⟨k1, v1⟩ := hd
    have hne : k ≠ k1 :=
      fun hh => h (k1, v1) (List.mem_cons_self _ _) hh.symm
    have ihr := ih fun p hp => h p (List.mem_cons_of_mem _ hp)
    simp only [List.cons_append, btreeRemove, hne, if_false, List.append_eq,
      ihr]

/-! ## The table facade (src/table.rs) -/

/-- Modelled from the spec: `MAX_VALUE_LENGTH` is defined in `tree_store`,
which is not part of the excerpt; the spec fixes it as a store-wide constant,
"typical 3× page" (§4.4), with the default page size 4096 of scenario S1. -/
def MAX_VALUE_LENGTH : Nat := 3 * 4096

/-- The error kinds the table facade can raise (spec §7; the excerpt uses
`Error::ValueTooLarge(size)` in src/table.rs lines 124, 128, 161, 165). -/
inductive Error where
  | ValueTooLarge (size : Nat)
deriving DecidableEq, Repr

/-- `Table::get` (src/table.rs lines 174-179): delegates to the tree. -/
def tableGet (t : TableState) (k : Bytes) : Option Bytes := btreeGet t k

/-- `ReadOnlyTable::get` (src/table.rs lines 284-289): delegates to the
tree. -/
def readOnlyTableGet (t : TableState) (k : Bytes) : Option Bytes :=
  btreeGet t k

/-- `Table::insert` (src/table.rs lines 113-131): reject a value whose
encoding exceeds `MAX_VALUE_LENGTH`, then a key whose encoding exceeds it,
then delegate to the tree.  Keys and values enter already encoded (the codec
is an opaque byte-oriented contract, spec §1). -/
def tableInsert (t : TableState) (k v : Bytes) :
    Except Error (TableState × Option Bytes) :=
  let value_len := v.length
  if MAX_VALUE_LENGTH < value_len then
    Except.error (Error.ValueTooLarge value_len)
  else
    let key_len := k.length
    if MAX_VALUE_LENGTH < key_len then
      Except.error (Error.ValueTooLarge key_len)
    else
      Except.ok (btreeInsert t k v)

/-- Modelled from the spec: `BtreeMut::insert_reserve` in `tree_store`
(called by `Table::insert_reserve`, src/table.rs line 167) allocates a leaf
entry of the declared byte length without populating it (spec §4.4
"Insert-reserve"); the fresh entry is modelled as a zero-initialized value of
that length. -/
def btreeInsertReserve (t : TableState) (k : Bytes) (value_length : Nat) :
    TableState × Option Bytes :=
  btreeInsert t k (List.replicate value_length 0)

/-- `Table::insert_reserve` (src/table.rs lines 152-168): reject a declared
value length exceeding `MAX_VALUE_LENGTH`, then a key whose encoding exceeds
it, then delegate to the tree.  The `u32` length is a `Nat` (the `as usize`
cast is lossless on 64-bit hosts). -/
def tableInsertReserve (t : TableState) (k : Bytes) (value_length : Nat) :
    Except Error (TableState × Option Bytes) :=
  if MAX_VALUE_LENGTH < value_length then
    Except.error (Error.ValueTooLarge value_length)
  else if MAX_VALUE_LENGTH < k.length then
    Except.error (Error.ValueTooLarge k.length)
  else
    Except.ok (btreeInsertReserve t k value_length)

/-- `Table::remove` (src/table.rs lines 136-144): delegates to the tree and
returns the old value if the key was present. -/
def tableRemove (t : TableState) (k : Bytes) : TableState × Option Bytes :=
  btreeRemove t k

/-- `Table::len` (src/table.rs lines 189-191): delegates to `self.tree.len()`.
The tree walk can fail with a storage error, so the result is an `Except`. -/
def tableLen (t : TableState) : Except Error Nat :=
  Except.ok (btreeLen t)

/-- `Table::is_empty` / `ReadOnlyTable::is_empty` (src/table.rs lines 193-195
and 303-305): literally `self.len().map(|x| x == 0)`, here as a function of
the result of `len()` (both implementations share this body). -/
def isEmptyFromLen {E : Type} (lenResult : Except E Nat) : Except E Bool :=
  lenResult.map fun x => x == 0

/-- `Table::is_empty` applied to the table state. -/
def tableIsEmpty (t : TableState) : Except Error Bool :=
  isEmptyFromLen (tableLen t)

/-- Modelled from the spec: the `BtreeRangeIter` behind `ReadableTable::iter`
(src/table.rs lines 258-261) holds a stack of page frames and yields the
entries in key order (spec §4.4 "Range / iteration"); consuming it forward
(`Range::next`, src/table.rs lines 424-433) yields the table's entries in
order. -/
def tableIter (t : TableState) : List (Bytes × Bytes) := t

/-- Consuming the same double-ended iterator from the high end
(`Range::next_back`, src/table.rs lines 439-448, as `iter().rev()` does)
yields the entries in reverse order. -/
def tableIterRev (t : TableState) : List (Bytes × Bytes) := t.reverse

/-- `Table::pop_first` (src/table.rs lines 44-59): take the first key from
`iter()`, copy it to an owned buffer, `remove` it and `unwrap()` the old
value.  The outer `Option` is `none` exactly when that `unwrap` would
panic. -/
def tablePopFirst (t : TableState) :
    Option (TableState × Option (Bytes × Bytes)) :=
  match (tableIter t).head? with
  | none => some (t, none)
  | some (k, _) =>
    match tableRemove t k with
    | (t1, some v) => some (t1, some (k, v))
    | (_, none) => none

/-- `Table::pop_last` (src/table.rs lines 62-78): take the first key from
`iter().rev()`, copy it to an owned buffer, `remove` it and `unwrap()` the
old value.  The outer `Option` is `none` exactly when that `unwrap` would
panic. -/
def tablePopLast (t : TableState) :
    Option (TableState × Option (Bytes × Bytes)) :=
  match (tableIterRev t).head? with
  | none => some (t, none)
  | some (k, _) =>
    match tableRemove t k with
    | (t1, some v) => some (t1, some (k, v))
    | (_, none) => none

/-! ## Transactions (modelled from the spec)

The pager and transaction layers are not part of the excerpt.  Per the spec,
a commit installs the write transaction's root as the new committed root
(§4.3.4), and a read transaction begun afterwards pins that root (§4.3.6);
reduced to the single table the claims concern, the committed state is the
table state the commit installed. -/

/-- Modelled from the spec: the durable state of a `Database`, reduced to the
content of one table (§4.3.4, §4.3.6). -/
structure Database where
  committed : TableState
deriving Repr

/-- Modelled from the spec: `begin_write` forks the committed state for the
writer (§4.5). -/
def beginWrite (db : Database) : TableState := db.committed

/-- Modelled from the spec: `commit()` installs the writer's state as the new
committed root (§4.3.4 step 5, the commit point). -/
def commit (w : TableState) : Database := ⟨w⟩

/-- Modelled from the spec: `begin_read` pins the committed root at the
moment of begin (§4.3.6). -/
def beginRead (db : Database) : TableState := db.committed

/-- A table mutation through the write facade, for quantifying over the
table states reachable through the API: `Table::insert` (with its size checks
passed) or `Table::remove`. -/
inductive TableOp where
  | insertOp (k v : Bytes)
  | removeOp (k : Bytes)

/-- Apply one facade mutation to the table state. -/
def applyOp (t : TableState) : TableOp → TableState
  | TableOp.insertOp k v => (btreeInsert t k v).1
  | TableOp.removeOp k => (btreeRemove t k).1

/-- The table state after a sequence of facade mutations, starting from the
empty root a freshly opened table has (spec §4.5). -/
def tableOfOps (ops : List TableOp) : TableState :=
  ops.foldl applyOp []

theorem sortedTable_tableOfOps (ops : List TableOp) :
    SortedTable (tableOfOps ops) := by
  have general : ∀ (l : List TableOp) (t : TableState), SortedTable t →
      SortedTable (l.foldl applyOp t) := by
    intro l
    induction l with
    | nil => exact fun t h => h
    | cons op rest ih =>
      intro t h
      refine ih (applyOp t op) ?_
      cases op with
      | insertOp k v => exact sortedTable_insert k v h
      | removeOp k => exact sortedTable_remove k h
  exact general ops [] (List.Pairwise.nil)

/-! ## Auxiliary facts about the write splice -/

theorem vecResize_length (v : Bytes) (n : Nat) : (vecResize v n).length = n := by
  simp only [vecResize, List.length_append, List.length_take,
    List.length_replicate]
  omega

/-- Index-level description of `take offset ++ nd ++ drop (offset + |nd|)`
when the spliced range lies inside `d`. -/
theorem splice_getElem (d nd : Bytes) (offset : Nat)
    (h : offset + nd.length ≤ d.length) :
    (d.take offset ++ nd ++ d.drop (offset + nd.length)).length = d.length ∧
    (∀ i, i < offset →
      (d.take offset ++ nd ++ d.drop (offset + nd.length))[i]? = d[i]?) ∧
    (∀ i, offset ≤ i → i < offset + nd.length →
      (d.take offset ++ nd ++ d.drop (offset + nd.length))[i]? =
        nd[i - offset]?) ∧
    (∀ i, offset + nd.length ≤ i →
      (d.take offset ++ nd ++ d.drop (offset + nd.length))[i]? = d[i]?) := by
  have hoff : offset ≤ d.length := le_trans (Nat.le_add_right _ _) h
  have htake : (d.take offset).length = offset := by
    simp only [List.length_take]
    omega
  have htn : (d.take offset ++ nd).length = offset + nd.length := by
    simp [htake]
  refine ⟨?_, ?_, ?_, ?_⟩
  · simp only [List.length_append, List.length_take, List.length_drop]
    omega
  · intro i hi
    rw [List.getElem?_append, if_pos (by omega : i < (d.take offset ++ nd).length),
      List.getElem?_append, if_pos (by omega : i < (d.take offset).length),
      List.getElem?_take, if_pos hi]
  · intro i hi1 hi2
    rw [List.getElem?_append, if_pos (by omega : i < (d.take offset ++ nd).length),
      List.getElem?_append, if_neg (by omega : ¬ i < (d.take offset).length),
      htake]
  · intro i hi
    rw [List.getElem?_append, if_neg (by omega : ¬ i < (d.take offset ++ nd).length),
      htn, List.getElem?_drop]
    congr 1
    omega

/-- Reading back the written range: the splice holds exactly `nd` at
`[offset, offset + |nd|)`. -/
theorem memoryLockFileWriteCore_readback (data nd : Bytes) (offset : Nat) :
    ((memoryLockFileWriteCore data offset nd).drop offset).take nd.length =
      nd := by
  by_cases hcase : data.length ≤ offset + nd.length
  · have hcore : memoryLockFileWriteCore data offset nd =
        (vecResize data (offset + nd.length)).take offset ++ nd ++
          (vecResize data (offset + nd.length)).drop (offset + nd.length) := by
      simp [memoryLockFileWriteCore, hcase]
    have htake : ((vecResize data (offset + nd.length)).take offset).length =
        offset := by
      simp only [List.length_take, vecResize_length]
      omega
    rw [hcore, List.append_assoc]
    conv in List.drop offset => rw [← htake]
    rw [List.drop_left, List.take_left]
  · have hcore : memoryLockFileWriteCore data offset nd =
        data.take offset ++ nd ++ data.drop (offset + nd.length) := by
      simp [memoryLockFileWriteCore, hcase]
    have htake : (data.take offset).length = offset := by
      simp only [List.length_take]
      omega
    rw [hcore, List.append_assoc]
    conv in List.drop offset => rw [← htake]
    rw [List.drop_left, List.take_left]

/-! ## Claims -/

/-- C10: for the in-memory locked file, `write(offset, data)` changes only
the bytes in `[offset, offset + |data|)`: every byte of the file outside that
interval keeps its previous value; the file length becomes the maximum of the
old length and `offset + |data|`; and when `offset` exceeds the previous file
length, the gap between the old end and `offset` is zero-filled and the file
grows to exactly `offset + |data|` bytes. -/
theorem memoryLockFileWrite_frame (data newData : Bytes) (offset : Nat) :
    ∃ r, memoryLockFileWrite data offset newData = Except.ok r ∧
      r.length = max data.length (offset + newData.length) ∧
      (∀ i, i < data.length → i < offset → r[i]? = data[i]?) ∧
      (∀ i, i < data.length → offset + newData.length ≤ i →
        r[i]? = data[i]?) ∧
      (∀ i, offset ≤ i → i < offset + newData.length →
        r[i]? = newData[i - offset]?) ∧
      (data.length < offset →
        r.length = offset + newData.length ∧
        ∀ i, data.length ≤ i → i < offset → r[i]? = some 0) := by
  refine ⟨memoryLockFileWriteCore data offset newData, rfl, ?_⟩
  by_cases hcase : data.length ≤ offset + newData.length
  · have hcore : memoryLockFileWriteCore data offset newData =
        (vecResize data (offset + newData.length)).take offset ++ newData ++
          (vecResize data (offset + newData.length)).drop
            (offset + newData.length) := by
      simp [memoryLockFileWriteCore, hcase]
    have hdlen : (vecResize data (offset + newData.length)).length =
        offset + newData.length := vecResize_length _ _
    obtain ⟨hlen, hlow, hmid, hhigh⟩ :=
      splice_getElem (vecResize data (offset + newData.length)) newData offset
        (le_of_eq hdlen.symm)
    have hdidx : ∀ i, i < data.length →
        (vecResize data (offset + newData.length))[i]? = data[i]? := by
      intro i hi
      rw [vecResize, List.getElem?_append,
        if_pos (by simp only [List.length_take]; omega), List.getElem?_take,
        if_pos (by omega)]
    have hdzero : ∀ i, data.length ≤ i → i < offset + newData.length →
        (vecResize data (offset + newData.length))[i]? = some 0 := by
      intro i hi1 hi2
      rw [vecResize, List.getElem?_append,
        if_neg (by simp only [List.length_take]; omega)]
      have : (List.take (offset + newData.length) data).length =
          data.length := by
        simp only [List.length_take]
        omega
      rw [this, List.getElem?_replicate, if_pos (by omega)]
    rw [hcore]
    refine ⟨by rw [hlen, hdlen]; omega, ?_, ?_, ?_, ?_⟩
    · intro i hi hio
      rw [hlow i hio, hdidx i hi]
    · intro i hi hio
      omega
    · exact hmid
    · intro hgap
      refine ⟨by rw [hlen, hdlen], ?_⟩
      intro i hi1 hi2
      rw [hlow i hi2, hdzero i hi1 (by omega)]
  · have hcore : memoryLockFileWriteCore data offset newData =
        data.take offset ++ newData ++
          data.drop (offset + newData.length) := by
      simp [memoryLockFileWriteCore, hcase]
    obtain ⟨hlen, hlow, hmid, hhigh⟩ :=
      splice_getElem data newData offset (by omega)
    rw [hcore]
    refine ⟨by rw [hlen]; omega, ?_, ?_, ?_, ?_⟩
    · intro i _ hio
      exact hlow i hio
    · intro i _ hio
      exact hhigh i hio
    · exact hmid
    · intro hgap
      omega

/-- Witness for C10 at a concrete input: writing `[9]` at offset 5 into
`[1, 2, 3]` keeps byte 1, zero-fills byte 3 and places the payload at
byte 5. -/
theorem memoryLockFileWrite_frame_witness :
    ∃ r, memoryLockFileWrite [1, 2, 3] 5 [9] = Except.ok r ∧
      r.length = 6 ∧ r[1]? = some 2 ∧ r[3]? = some 0 ∧ r[5]? = some 9 := by
  obtain ⟨r, hok, hlen, hlow, _, hmid, hgap⟩ :=
    memoryLockFileWrite_frame [1, 2, 3] [9] 5
  refine ⟨r, hok, by simpa using hlen, ?_, ?_, ?_⟩
  · have := hlow 1 (by decide) (by decide)
    simpa using this
  · have := (hgap (by decide)).2 3 (by decide) (by decide)
    simpa using this
  · have := hmid 5 (by decide) (by decide)
    simpa using this

/-- C3, counterexample: `MemoryLockFile::read` on an empty file at
`offset = 0`, `len = 1` slices `data[0..1]` out of range, which in Rust is a
panic (modelled by the outer `none`), not an error return — refuting "never a
short read and never a panic ... for both the OS-backed and the in-memory
locked-file implementations". -/
theorem memoryLockFileRead_out_of_range_panics :
    memoryLockFileRead [] 0 1 = none := rfl

/-- C3, amended: the OS-backed read fills exactly `len` bytes or returns an
error, and the OS-backed write writes all of `data` at `offset` or returns an
error; the in-memory write always succeeds and writes all of `data` at
`offset`; the in-memory read returns exactly `len` bytes when
`offset + len` is within the file and otherwise panics (it does not return
an error). -/
theorem lockedFile_read_exact_write_total :
    (∀ (fault : Option IoErrorKind) (data : Bytes) (offset len : Nat),
      (∃ buf, unixLockedFileRead fault data offset len = Except.ok buf ∧
        buf.length = len) ∨
      (∃ e, unixLockedFileRead fault data offset len = Except.error e)) ∧
    (∀ (fault : Option IoErrorKind) (data nd : Bytes) (offset : Nat),
      (∃ r, unixLockedFileWrite fault data offset nd = Except.ok r ∧
        (r.drop offset).take nd.length = nd) ∨
      (∃ e, unixLockedFileWrite fault data offset nd = Except.error e)) ∧
    (∀ (data nd : Bytes) (offset : Nat),
      ∃ r, memoryLockFileWrite data offset nd = Except.ok r ∧
        (r.drop offset).take nd.length = nd) ∧
    (∀ (data : Bytes) (offset len : Nat),
      (offset + len ≤ data.length →
        ∃ buf, memoryLockFileRead data offset len = some (Except.ok buf) ∧
          buf.length = len) ∧
      (data.length < offset + len → memoryLockFileRead data offset len = none)) := by
  refine ⟨?_, ?_, ?_, ?_⟩
  · intro fault data offset len
    cases fault with
    | some k => exact Or.inr ⟨_, rfl⟩
    | none =>
      by_cases h : offset + len ≤ data.length
      · refine Or.inl ⟨(data.drop offset).take len, by simp [unixLockedFileRead, h], ?_⟩
        simp only [List.length_take, List.length_drop]
        omega
      · exact Or.inr ⟨LockedFileError.IoError IoErrorKind.unexpectedEof,
          by simp [unixLockedFileRead, h]⟩
  · intro fault data nd offset
    cases fault with
    | some k => exact Or.inr ⟨_, rfl⟩
    | none =>
      exact Or.inl ⟨_, rfl, memoryLockFileWriteCore_readback data nd offset⟩
  · intro data nd offset
    exact ⟨_, rfl, memoryLockFileWriteCore_readback data nd offset⟩
  · intro data offset len
    constructor
    · intro h
      refine ⟨(data.drop offset).take len, by simp [memoryLockFileRead, h], ?_⟩
      simp only [List.length_take, List.length_drop]
      omega
    · intro h
      simp [memoryLockFileRead]
      omega

/-- Witness for C3's amended statement at concrete inputs. -/
theorem lockedFile_read_exact_write_total_witness :
    (∃ buf, unixLockedFileRead none [4, 5, 6] 1 2 = Except.ok buf ∧
      buf.length = 2) ∨
    (∃ e, unixLockedFileRead none [4, 5, 6] 1 2 = Except.error e) := by
  exact lockedFile_read_exact_write_total.1 none [4, 5, 6] 1 2

/-- C4: constructing a locked file issues a single non-blocking exclusive
flock request and has exactly three outcomes: success, the distinct
`DatabaseAlreadyOpen` error when the OS reports `WouldBlock`, and an I/O
error carrying the underlying OS error in every other failure case. -/
theorem lockedFileNew_outcomes (os : FlockRequest → FlockOutcome) :
    (os ⟨true, true⟩ = FlockOutcome.success → lockedFileNew os = Except.ok ()) ∧
    (os ⟨true, true⟩ = FlockOutcome.failure IoErrorKind.wouldBlock →
      lockedFileNew os = Except.error LockedFileError.DatabaseAlreadyOpen) ∧
    (∀ k, k ≠ IoErrorKind.wouldBlock →
      os ⟨true, true⟩ = FlockOutcome.failure k →
      lockedFileNew os = Except.error (LockedFileError.IoError k)) ∧
    (lockedFileNew os = Except.ok () ∨
      lockedFileNew os = Except.error LockedFileError.DatabaseAlreadyOpen ∨
      ∃ k, k ≠ IoErrorKind.wouldBlock ∧
        lockedFileNew os = Except.error (LockedFileError.IoError k)) := by
  refine ⟨?_, ?_, ?_, ?_⟩
  · intro h
    simp [lockedFileNew, h]
  · intro h
    simp [lockedFileNew, h]
  · intro k hk h
    simp [lockedFileNew, h, hk]
  · cases h : os ⟨true, true⟩ with
    | success => exact Or.inl (by simp [lockedFileNew, h])
    | failure k =>
      by_cases hk : k = IoErrorKind.wouldBlock
      · subst hk
        exact Or.inr (Or.inl (by simp [lockedFileNew, h]))
      · exact Or.inr (Or.inr ⟨k, hk, by simp [lockedFileNew, h, hk]⟩)

/-- Witness for C4 at a concrete input: an OS that grants the lock. -/
theorem lockedFileNew_outcomes_witness :
    lockedFileNew (fun _ => FlockOutcome.success) = Except.ok () :=
  (lockedFileNew_outcomes (fun _ => FlockOutcome.success)).1 rfl

/-- C2, counterexample: `MemoryFs::create` on a path that already holds a
file with contents `[7]` installs a fresh empty file, so the path's contents
are discarded — refuting "creating it only if absent, and never truncates or
discards existing file contents" for the in-memory filesystem. -/
theorem memoryFsCreate_discards_existing :
    (memoryFsOpen
        (MemoryFsState.writeFile (memoryFsCreate (⟨[], []⟩ : MemoryFsState Nat) 0).1
          (memoryFsCreate (⟨[], []⟩ : MemoryFsState Nat) 0).2 0 [7]) 0).map
      (MemoryFsState.writeFile (memoryFsCreate (⟨[], []⟩ : MemoryFsState Nat) 0).1
          (memoryFsCreate (⟨[], []⟩ : MemoryFsState Nat) 0).2 0 [7]).fileData =
        Except.ok [7] ∧
    (memoryFsOpen
        (memoryFsCreate
          (MemoryFsState.writeFile (memoryFsCreate (⟨[], []⟩ : MemoryFsState Nat) 0).1
            (memoryFsCreate (⟨[], []⟩ : MemoryFsState Nat) 0).2 0 [7]) 0).1 0).map
      (memoryFsCreate
          (MemoryFsState.writeFile (memoryFsCreate (⟨[], []⟩ : MemoryFsState Nat) 0).1
            (memoryFsCreate (⟨[], []⟩ : MemoryFsState Nat) 0).2 0 [7]) 0).1.fileData =
        Except.ok [] :=
  ⟨rfl, rfl⟩

theorem memoryLockFileWriteCore_nil (nd : Bytes) :
    memoryLockFileWriteCore [] 0 nd = nd := by
  simp [memoryLockFileWriteCore, vecResize]

/-- C2, amended: `StdFs::create` asks the OS for read+write access with
create-if-absent and without truncation; `MemoryFs::create` unconditionally
installs a fresh empty shared buffer at the path (replacing any existing
binding), leaves every other path untouched, and a subsequent `open` of the
path yields the very handle `create` returned, so reads through it observe
exactly the bytes written through the `create` handle. -/
theorem memoryFsCreate_fresh_shared {π : Type} [DecidableEq π]
    (s : MemoryFsState π) (p : π) (data : Bytes) :
    memoryFsOpen (memoryFsCreate s p).1 p = Except.ok (memoryFsCreate s p).2 ∧
    (memoryFsCreate s p).1.fileData (memoryFsCreate s p).2 = [] ∧
    (∀ q, q ≠ p → memoryFsOpen (memoryFsCreate s p).1 q = memoryFsOpen s q) ∧
    (memoryFsOpen
        (MemoryFsState.writeFile (memoryFsCreate s p).1 (memoryFsCreate s p).2
          0 data) p = Except.ok (memoryFsCreate s p).2 ∧
      (MemoryFsState.writeFile (memoryFsCreate s p).1 (memoryFsCreate s p).2
          0 data).fileData (memoryFsCreate s p).2 = data) ∧
    (stdFsCreateOptions.readAccess = true ∧
      stdFsCreateOptions.writeAccess = true ∧
      stdFsCreateOptions.create = true ∧
      stdFsCreateOptions.truncate = false) := by
  have hfresh : (memoryFsCreate s p).1.fileData (memoryFsCreate s p).2 = [] := by
    simp [memoryFsCreate, MemoryFsState.fileData, List.getD,
      List.getElem?_concat_length]
  refine ⟨?_, hfresh, ?_, ⟨?_, ?_⟩, rfl, rfl, rfl, rfl⟩
  · simp [memoryFsOpen, memoryFsCreate, List.lookup]
  · intro q hq
    have hbeq : (q == p) = false := beq_eq_false_iff_ne.mpr hq
    simp [memoryFsOpen, memoryFsCreate, List.lookup, hbeq]
  · simp [memoryFsOpen, memoryFsCreate, MemoryFsState.writeFile, List.lookup]
  · simp only [memoryFsCreate, MemoryFsState.writeFile, MemoryFsState.fileData,
      List.getD_eq_getElem?_getD, List.getElem?_concat_length,
      Option.getD_some, memoryLockFileWriteCore_nil]
    rw [List.getElem?_set_self (by simp)]
    rfl

/-- Witness for C2's amended statement at a concrete input, including the
frame clause for a distinct path. -/
theorem memoryFsCreate_fresh_shared_witness :
    memoryFsOpen (memoryFsCreate (⟨[], []⟩ : MemoryFsState Nat) 0).1 1 =
      memoryFsOpen (⟨[], []⟩ : MemoryFsState Nat) 1 ∧
    (MemoryFsState.writeFile (memoryFsCreate (⟨[], []⟩ : MemoryFsState Nat) 0).1
        (memoryFsCreate (⟨[], []⟩ : MemoryFsState Nat) 0).2 0 [7]).fileData
      (memoryFsCreate (⟨[], []⟩ : MemoryFsState Nat) 0).2 = [7] := by
  obtain ⟨_, _, hframe, ⟨_, hread⟩, _⟩ :=
    memoryFsCreate_fresh_shared (⟨[], []⟩ : MemoryFsState Nat) 0 [7]
  exact ⟨hframe 1 (by decide), hread⟩

/-- C1: for every key and value admitted by the codecs (encodings within
`MAX_VALUE_LENGTH`), `insert(K, V)` through a write transaction succeeds, and
after `commit()` a subsequently begun read transaction's `get(K)` returns
`Some(V)`. -/
theorem insert_commit_get_round_trip (db : Database) (k v : Bytes)
    (hk : k.length ≤ MAX_VALUE_LENGTH) (hv : v.length ≤ MAX_VALUE_LENGTH) :
    ∃ t1 old, tableInsert (beginWrite db) k v = Except.ok (t1, old) ∧
      readOnlyTableGet (beginRead (commit t1)) k = some v := by
  refine ⟨(btreeInsert (beginWrite db) k v).1,
    (btreeInsert (beginWrite db) k v).2, ?_, ?_⟩
  · simp [tableInsert, Nat.not_lt_of_le hk, Nat.not_lt_of_le hv]
  · exact btreeGet_insert_self (beginWrite db) k v

/-- Witness for C1 at a concrete input. -/
theorem insert_commit_get_round_trip_witness :
    ∃ t1 old, tableInsert (beginWrite ⟨[]⟩) [3] [7] = Except.ok (t1, old) ∧
      readOnlyTableGet (beginRead (commit t1)) [3] = some [7] :=
  insert_commit_get_round_trip ⟨[]⟩ [3] [7] (by decide) (by decide)

/-- C5: `insert` and `insert_reserve` fail with `ValueTooLarge` carrying the
offending size whenever the encoded key length or the encoded / declared
value length exceeds `MAX_VALUE_LENGTH`, leaving the table untouched (no new
state is produced); otherwise the size checks pass and the operation proceeds
to the tree. -/
theorem insert_size_checks (t : TableState) (k v : Bytes)
    (value_length : Nat) :
    ((MAX_VALUE_LENGTH < k.length ∨ MAX_VALUE_LENGTH < v.length) →
      ∃ s, tableInsert t k v = Except.error (Error.ValueTooLarge s) ∧
        MAX_VALUE_LENGTH < s ∧ (s = k.length ∨ s = v.length)) ∧
    (k.length ≤ MAX_VALUE_LENGTH → v.length ≤ MAX_VALUE_LENGTH →
      tableInsert t k v = Except.ok (btreeInsert t k v)) ∧
    ((MAX_VALUE_LENGTH < k.length ∨ MAX_VALUE_LENGTH < value_length) →
      ∃ s, tableInsertReserve t k value_length =
          Except.error (Error.ValueTooLarge s) ∧
        MAX_VALUE_LENGTH < s ∧ (s = k.length ∨ s = value_length)) ∧
    (k.length ≤ MAX_VALUE_LENGTH → value_length ≤ MAX_VALUE_LENGTH →
      tableInsertReserve t k value_length =
        Except.ok (btreeInsertReserve t k value_length)) := by
  refine ⟨?_, ?_, ?_, ?_⟩
  · intro h
    by_cases hv : MAX_VALUE_LENGTH < v.length
    · exact ⟨v.length, by simp [tableInsert, hv], hv, Or.inr rfl⟩
    · have hk : MAX_VALUE_LENGTH < k.length := by tauto
      exact ⟨k.length, by simp [tableInsert, hv, hk], hk, Or.inl rfl⟩
  · intro hk hv
    simp [tableInsert, Nat.not_lt_of_le hk, Nat.not_lt_of_le hv]
  · intro h
    by_cases hv : MAX_VALUE_LENGTH < value_length
    · exact ⟨value_length, by simp [tableInsertReserve, hv], hv, Or.inr rfl⟩
    · have hk : MAX_VALUE_LENGTH < k.length := by tauto
      exact ⟨k.length, by simp [tableInsertReserve, hv, hk], hk, Or.inl rfl⟩
  · intro hk hv
    simp [tableInsertReserve, Nat.not_lt_of_le hk, Nat.not_lt_of_le hv]

/-- Witness for C5: a value one byte over the cap (scenario S4) is rejected
with its size, and a small pair is accepted. -/
theorem insert_size_checks_witness :
    (∃ s, tableInsert [] [1] (List.replicate (MAX_VALUE_LENGTH + 1) 0) =
        Except.error (Error.ValueTooLarge s) ∧
      MAX_VALUE_LENGTH < s ∧
      (s = ([1] : Bytes).length ∨
        s = (List.replicate (MAX_VALUE_LENGTH + 1) 0).length)) ∧
    tableInsert [] [1] [2] = Except.ok (btreeInsert [] [1] [2]) := by
  refine ⟨(insert_size_checks [] [1]
      (List.replicate (MAX_VALUE_LENGTH + 1) 0) 0).1 (Or.inr ?_), ?_⟩
  · simp [List.length_replicate]
  · exact ((insert_size_checks [] [1] [2] 0).2.1 (by decide) (by decide))

/-- C6: every table state reachable through the facade (any sequence of
inserts and removes on a freshly opened, empty table) has its iterator yield
the entries in strictly ascending encoded-key byte order, and the reversed
iterator (consuming via `next_back`, as `iter().rev()` does) yield the same
entries in strictly descending order. -/
theorem iter_ascending_rev_descending (ops : List TableOp) :
    List.Pairwise (fun a b => ltBytes a.1 b.1 = true)
      (tableIter (tableOfOps ops)) ∧
    List.Pairwise (fun a b => ltBytes b.1 a.1 = true)
      (tableIterRev (tableOfOps ops)) ∧
    (tableIterRev (tableOfOps ops)).reverse = tableIter (tableOfOps ops) := by
  have hs := sortedTable_tableOfOps ops
  refine ⟨hs, ?_, by simp [tableIter, tableIterRev]⟩
  rw [tableIterRev, List.pairwise_reverse]
  exact hs

/-- C7: `pop_first` removes and returns exactly the entry with the smallest
encoded key and `pop_last` the entry with the largest; on an empty table both
return `None` and leave the table unchanged (and the `unwrap` inside never
panics on a sorted table). -/
theorem popFirst_popLast_extremal (t : TableState) (h : SortedTable t) :
    (t = [] → tablePopFirst t = some (t, none) ∧
      tablePopLast t = some (t, none)) ∧
    (∀ k v rest, t = (k, v) :: rest →
      tablePopFirst t = some (rest, some (k, v)) ∧
      ∀ p ∈ rest, ltBytes k p.1 = true) ∧
    (∀ k v front, t = front ++ [(k, v)] →
      tablePopLast t = some (front, some (k, v)) ∧
      ∀ p ∈ front, ltBytes p.1 k = true) := by
  refine ⟨?_, ?_, ?_⟩
  · intro ht
    subst ht
    exact ⟨rfl, rfl⟩
  · intro k v rest ht
    subst ht
    rw [SortedTable, List.pairwise_cons] at h
    refine ⟨?_, fun p hp => h.1 p hp⟩
    simp [tablePopFirst, tableIter, tableRemove, btreeRemove]
  · intro k v front ht
    subst ht
    have hcross : ∀ p ∈ front, ltBytes p.1 k = true := by
      rw [SortedTable, List.pairwise_append] at h
      intro p hp
      exact h.2.2 p hp (k, v) (List.mem_singleton_self _)
    refine ⟨?_, hcross⟩
    have hne : ∀ p ∈ front, p.1 ≠ k := fun p hp => ltBytes_ne (hcross p hp)
    have hrev : (tableIterRev (front ++ [(k, v)])).head? = some (k, v) := by
      simp [tableIterRev]
    have hrem := btreeRemove_append_last (k := k) (v := v) hne
    rw [tablePopLast, hrev]
    show (match tableRemove (front ++ [(k, v)]) k with
      | (t1, some v1) => some (t1, some (k, v1))
      | (_, none) => none) = some (front, some (k, v))
    rw [tableRemove, hrem]

/-- Witness for C7 at a concrete sorted two-entry table. -/
theorem popFirst_popLast_extremal_witness :
    tablePopFirst [([1], [10]), ([2], [20])] =
      some ([([2], [20])], some ([1], [10])) ∧
    tablePopLast [([1], [10]), ([2], [20])] =
      some ([([1], [10])], some ([2], [20])) := by
  have h := popFirst_popLast_extremal [([1], [10]), ([2], [20])] (by decide)
  refine ⟨(h.2.1 [1] [10] [([2], [20])] rfl).1, ?_⟩
  exact (h.2.2 [2] [20] [([1], [10])] rfl).1

/-- C8: removing the same key twice leaves the table in the same state as
removing it once, and the second `remove` returns `None`. -/
theorem remove_remove_idempotent (t : TableState) (k : Bytes)
    (h : SortedTable t) :
    tableRemove (tableRemove t k).1 k = ((tableRemove t k).1, none) :=
  btreeRemove_of_get_none (btreeGet_remove_self k h)

/-- Witness for C8 at a concrete sorted table. -/
theorem remove_remove_idempotent_witness :
    tableRemove (tableRemove [([1], [10])] [1]).1 [1] =
      ((tableRemove [([1], [10])] [1]).1, none) :=
  remove_remove_idempotent [([1], [10])] [1] (by decide)

/-- C9: `is_empty` is `len().map(|x| x == 0)` for both `Table` and
`ReadOnlyTable`: whenever `len()` succeeds with `n`, `is_empty()` succeeds
and returns `true` iff `n = 0`; `is_empty()` fails exactly when, and with
the same error as, `len()`. -/
theorem isEmpty_iff_len_zero {E : Type} (r : Except E Nat) (t : TableState) :
    (∀ n, r = Except.ok n →
      isEmptyFromLen r = Except.ok (n == 0) ∧ ((n == 0) = true ↔ n = 0)) ∧
    (∀ e, r = Except.error e → isEmptyFromLen r = Except.error e) ∧
    (∀ e, isEmptyFromLen r = Except.error e → r = Except.error e) ∧
    tableIsEmpty t = Except.ok (btreeLen t == 0) := by
  refine ⟨?_, ?_, ?_, rfl⟩
  · intro n hr
    subst hr
    exact ⟨rfl, by simp⟩
  · intro e hr
    subst hr
    rfl
  · intro e hr
    cases r with
    | ok n => simp [isEmptyFromLen, Except.map] at hr
    | error e1 =>
      simp only [isEmptyFromLen, Except.map, Except.error.injEq] at hr
      rw [hr]

/-- Witness for C9 at concrete results of `len()`. -/
theorem isEmpty_iff_len_zero_witness :
    isEmptyFromLen (Except.ok 0 : Except Error Nat) = Except.ok true ∧
    isEmptyFromLen (Except.error (Error.ValueTooLarge 5) : Except Error Nat) =
      Except.error (Error.ValueTooLarge 5) ∧
    tableIsEmpty [([1], [10])] = Except.ok false := by
  obtain ⟨hok, _, _, _⟩ :=
    @isEmpty_iff_len_zero Error (Except.ok 0) ([] : TableState)
  obtain ⟨_, herr, _, _⟩ :=
    @isEmpty_iff_len_zero Error (Except.error (Error.ValueTooLarge 5))
      ([] : TableState)
  obtain ⟨_, _, _, htab⟩ :=
    @isEmpty_iff_len_zero Error (Except.ok 0) [([1], [10])]
  exact ⟨by simpa using (hok 0 rfl).1, herr _ rfl, by simpa using htab⟩

end Redb
